import Mathlib

/-!
Verification of the batch translation engine of `src/translator.py`
(whisper-subtitle-cli): language resolution, line-break delimiter encoding,
batch-response parsing, the recursive split-on-failure translation
algorithm, and the constructor's configuration defaulting.

Python strings are modelled as `List Char` (parsing, delimiter handling) or
`String` (language tables); the external generation service is an oracle
`Nat → ServiceOutcome` giving the outcome of each successive HTTP call, and
the effectful translator methods run in a state monad recording the timeout
of every service call and every progress-callback invocation, with Python
exceptions as the `Except` layer.
-/

set_option maxRecDepth 100000

/-- Characters of the delimiter `OllamaTranslator.LINE_DELIMITER = " || "`. -/
def LINE_DELIMITER : List Char := [' ', '|', '|', ' ']

/-- Model of `_preserve_linebreaks`: `text.replace('\n', self.LINE_DELIMITER)`.
Python `str.replace` with a one-character pattern substitutes every
occurrence of that character. -/
def preserve_linebreaks : List Char → List Char
  | [] => []
  | '\n' :: t => ' ' :: '|' :: '|' :: ' ' :: preserve_linebreaks t
  | c :: t => c :: preserve_linebreaks t

/-- Model of `_restore_linebreaks`: `text.replace(self.LINE_DELIMITER, '\n')`.
Python `str.replace` scans left to right and substitutes non-overlapping
occurrences of the four-character delimiter. -/
def restore_linebreaks : List Char → List Char
  | ' ' :: '|' :: '|' :: ' ' :: t => '\n' :: restore_linebreaks t
  | c :: t => c :: restore_linebreaks t
  | [] => []

/-- Timed subtitle segment `{'start': .., 'end': .., 'text': ..}`; Python float
timestamps are carried, never computed with, and are modelled as `Rat`. -/
structure Segment where
  start : Rat
  «end» : Rat
  text : List Char
deriving DecidableEq

/-! ### Batch-response parsing (`_parse_batch_response`)

Python's `str.strip()` and the regex classes `\s`, `\d` are modelled with
`Char.isWhitespace` and `Char.isDigit` (the ASCII fragment, which is all the
code's own prompts and tests exercise). -/

/-- Python `str.strip()`: drop whitespace from both ends. -/
def pyStrip (s : List Char) : List Char :=
  ((s.dropWhile Char.isWhitespace).reverse.dropWhile Char.isWhitespace).reverse

/-- Python `int()` on a string of decimal digits. -/
def natOfDigits (ds : List Char) : Nat :=
  ds.foldl (fun n c => 10 * n + (c.toNat - '0'.toNat)) 0

/-- Model of `re.match(r'^(\d+)\.\s*(.+)$', line)` followed by `int(group(1))` and
`group(2).strip()` (lines 371-375 of `translator.py`).  The digits are the
maximal leading digit run; then a literal `'.'`; `(.+)` forces at least one
character after it, and when everything after the dot is whitespace the greedy
`\s*` backtracks by one so that group 2 is the final whitespace character. -/
def matchNumberedLine (line : List Char) : Option (Nat × List Char) :=
  let digits := line.takeWhile Char.isDigit
  if digits = [] then none
  else
    match line.dropWhile Char.isDigit with
    | '.' :: rest =>
      if h : rest = [] then none
      else
        let content := rest.dropWhile Char.isWhitespace
        let group2 := if content = [] then [rest.getLast h] else content
        some (natOfDigits digits, pyStrip group2)
    | _ => none

/-- One iteration of the parse loop (lines 367-375): strip the line, and on a
pattern match update the mapping (`translations[num] = text`, later lines
overwriting earlier ones); empty and non-matching lines leave it unchanged. -/
def updateTranslations (m : Nat → Option (List Char)) (line : List Char) :
    Nat → Option (List Char) :=
  match matchNumberedLine (pyStrip line) with
  | some (num, text) => fun k => if k = num then some text else m k
  | none => m

/-- The `translations` dict built by the parse loop over all lines. -/
def collectTranslations (lines : List (List Char)) : Nat → Option (List Char) :=
  lines.foldl updateTranslations (fun _ => none)

/-- Index `i` appears as the line number of some pattern-matching line of the
response (the mapping built by `_parse_batch_response` has key `i`). -/
def line_has_number (response : List Char) (i : Nat) : Prop :=
  ∃ l ∈ (pyStrip response).splitOn '\n',
    (matchNumberedLine (pyStrip l)).map Prod.fst = some i

/-- The validation loop (lines 378-384): for `i` in `start..start+count-1`
return the mapped texts in order, or `none` at the first missing index. -/
def gatherTranslations (m : Nat → Option (List Char)) : Nat → Nat → Option (List (List Char))
  | _, 0 => some []
  | start, count + 1 =>
    match m start with
    | none => none
    | some t => (gatherTranslations m (start + 1) count).map (fun ts => t :: ts)

/-- Model of `_parse_batch_response(response, expected_count)`: split the stripped
response on newlines, collect numbered lines, and validate `1..expected_count`. -/
def parse_batch_response (response : List Char) (expected_count : Nat) :
    Option (List (List Char)) :=
  gatherTranslations (collectTranslations ((pyStrip response).splitOn '\n')) 1 expected_count

/-! ### Language resolution (`LANGUAGE_CODES`, `LANGUAGE_NAMES`, `parse_language`) -/

/-- The `LANGUAGE_CODES` dict (lines 11-39), in insertion order.  Keys are
distinct, so an association list looked up front-to-back models it. -/
def LANGUAGE_CODES : List (String × String) :=
  [("afrikaans", "af"), ("amharic", "am"), ("arabic", "ar"), ("assamese", "as"),
   ("azerbaijani", "az"), ("bashkir", "ba"), ("belarusian", "be"), ("bulgarian", "bg"),
   ("bengali", "bn"), ("tibetan", "bo"), ("breton", "br"), ("bosnian", "bs"),
   ("catalan", "ca"), ("czech", "cs"), ("welsh", "cy"), ("danish", "da"),
   ("german", "de"), ("greek", "el"), ("english", "en"), ("spanish", "es"),
   ("estonian", "et"), ("basque", "eu"), ("persian", "fa"), ("finnish", "fi"),
   ("faroese", "fo"), ("french", "fr"), ("galician", "gl"), ("gujarati", "gu"),
   ("hausa", "ha"), ("hawaiian", "haw"), ("hebrew", "he"), ("hindi", "hi"),
   ("croatian", "hr"), ("haitian", "ht"), ("hungarian", "hu"), ("armenian", "hy"),
   ("indonesian", "id"), ("icelandic", "is"), ("italian", "it"), ("japanese", "ja"),
   ("javanese", "jw"), ("georgian", "ka"), ("kazakh", "kk"), ("khmer", "km"),
   ("kannada", "kn"), ("korean", "ko"), ("latin", "la"), ("luxembourgish", "lb"),
   ("lingala", "ln"), ("lao", "lo"), ("lithuanian", "lt"), ("latvian", "lv"),
   ("malagasy", "mg"), ("maori", "mi"), ("macedonian", "mk"), ("malayalam", "ml"),
   ("mongolian", "mn"), ("marathi", "mr"), ("malay", "ms"), ("maltese", "mt"),
   ("burmese", "my"), ("nepali", "ne"), ("dutch", "nl"), ("nynorsk", "nn"),
   ("norwegian", "no"), ("occitan", "oc"), ("punjabi", "pa"), ("polish", "pl"),
   ("pashto", "ps"), ("portuguese", "pt"), ("romanian", "ro"), ("russian", "ru"),
   ("sanskrit", "sa"), ("sindhi", "sd"), ("sinhala", "si"), ("slovak", "sk"),
   ("slovenian", "sl"), ("shona", "sn"), ("somali", "so"), ("albanian", "sq"),
   ("serbian", "sr"), ("sundanese", "su"), ("swedish", "sv"), ("swahili", "sw"),
   ("tamil", "ta"), ("telugu", "te"), ("tajik", "tg"), ("thai", "th"),
   ("turkmen", "tk"), ("tagalog", "tl"), ("turkish", "tr"), ("tatar", "tt"),
   ("ukrainian", "uk"), ("urdu", "ur"), ("uzbek", "uz"), ("vietnamese", "vi"),
   ("yiddish", "yi"), ("yoruba", "yo"), ("chinese", "zh"), ("cantonese", "yue"),
   ("traditional chinese", "zh"), ("taiwanese", "zh")]

/-- Python `str.lower()` on the ASCII range. -/
def pyLower (s : List Char) : List Char := s.map Char.toLower

/-- Dict lookup keyed by the characters of the key. -/
def lookupStr (key : List Char) (table : List (String × String)) : Option String :=
  (table.find? (fun p => p.1.toList = key)).map (fun p => p.2)

/-- Python `str.title()`: a cased character is uppercased after a non-letter
(or at the start) and lowercased after a letter.  The repository only titles
the ASCII keys of `LANGUAGE_CODES`. -/
def pyTitleAux : Bool → List Char → List Char
  | _, [] => []
  | prevAlpha, c :: t => (if prevAlpha then c.toLower else c.toUpper) :: pyTitleAux c.isAlpha t

/-- Python `str.title()`. -/
def pyTitle (s : List Char) : String := String.mk (pyTitleAux false s)

/-- The derived `LANGUAGE_NAMES` dict (lines 42-45): code to titled primary
name, first occurrence of a code winning. -/
def LANGUAGE_NAMES : List (String × String) :=
  LANGUAGE_CODES.foldl
    (fun acc p =>
      if (lookupStr p.2.toList acc).isSome then acc else acc ++ [(p.2, pyTitle p.1.toList)])
    []

/-- The `PROMPT_LANGUAGE_NAMES` dict (lines 49-51). -/
def PROMPT_LANGUAGE_NAMES : List (String × String) :=
  [("chinese", "Traditional Chinese (Taiwan, 繁體中文)")]

/-- Model of `get_prompt_language(language)` (line 66). -/
def get_prompt_language (language : String) : String :=
  (lookupStr (pyLower language.toList) PROMPT_LANGUAGE_NAMES).getD language

/-- Model of `parse_language(language)` (lines 69-94): lowercase and strip, look up the
name table then the code table, `None` on a miss. -/
def parse_language (language : String) : Option (String × String) :=
  let lower := pyStrip (pyLower language.toList)
  match lookupStr lower LANGUAGE_CODES with
  | some code => some (pyTitle lower, code)
  | none =>
    match lookupStr lower LANGUAGE_NAMES with
    | some name => some (name, String.mk lower)
    | none => none

/-- Model of `get_language_code(language)` (line 107): table hit or the first two
characters of the lowercased input. -/
def get_language_code (language : String) : String :=
  (lookupStr (pyLower language.toList) LANGUAGE_CODES).getD
    (String.mk ((pyLower language.toList).take 2))

/-- Model of `get_language_name(code)` (line 120). -/
def get_language_name (code : String) : String :=
  (lookupStr (pyLower code.toList) LANGUAGE_NAMES).getD code

/-! ### Configuration and constructor (`load_config`, `OllamaTranslator.__init__`) -/

/-- The `ollama` section of the merged configuration dictionary.  After
`load_config` the keys `model` and `base_url` are always present;
`batch_size` and `keep_alive` are read with `.get(key, default)` in the
constructor, so they are optional here. -/
structure OllamaConfig where
  model : String
  base_url : String
  batch_size : Option Int
  keep_alive : Option String

/-- The translator produced by `OllamaTranslator.__init__`. -/
structure OllamaTranslator where
  model : String
  base_url : String
  batch_size : Int
  keep_alive : String

/-- Python `x or default` for an optional string argument: `None` and the
empty string are falsy. -/
def pyOrStr (x : Option String) (default : String) : String :=
  match x with
  | none => default
  | some v => if v = "" then default else v

/-- Python `x or default` for an optional integer argument: `None` and `0`
are falsy. -/
def pyOrInt (x : Option Int) (default : Int) : Int :=
  match x with
  | none => default
  | some v => if v = 0 then default else v

/-- Model of `OllamaTranslator.__init__(model, base_url, batch_size, keep_alive)`
(lines 160-174): each attribute is `argument or config value`, with the
`.get` fallbacks 50 and `'10m'` for `batch_size` and `keep_alive`. -/
def ollama_translator_init (model base_url : Option String) (batch_size : Option Int)
    (keep_alive : Option String) (config : OllamaConfig) : OllamaTranslator :=
  { model := pyOrStr model config.model
    base_url := pyOrStr base_url config.base_url
    batch_size := pyOrInt batch_size (config.batch_size.getD 50)
    keep_alive := pyOrStr keep_alive (config.keep_alive.getD "10m") }

/-- Model of `_is_translategemma` (lines 176-178): substring test on the lowercased
model name. -/
def is_translategemma (tr : OllamaTranslator) : Bool :=
  decide ("translategemma".toList <:+: pyLower tr.model.toList)

/-! ### The effect model

`_call_ollama` issues one HTTP request per invocation; the external service
is an oracle giving the outcome of the `k`-th request of a run.  A run
records the timeout of every request and the arguments of every
progress-callback invocation, and Python exceptions travel in the `Except`
layer.  The only `try/except` in `translator.py` is the one inside
`_call_ollama` that maps `requests` exceptions to `ConnectionError` /
`RuntimeError` (lines 209-225); no caller catches anything. -/

/-- Exceptions `_call_ollama` can raise. -/
inductive PyErr where
  | connectionError
  | runtimeError
deriving DecidableEq

/-- Outcome of one HTTP request: the `response` field of the JSON reply, or
one of the `requests` exception classes `_call_ollama` distinguishes. -/
inductive ServiceOutcome where
  | ok (response : List Char)
  | connectionFailure
  | timeoutFailure
  | httpFailure
  | requestFailure

/-- The external generation service: outcome of the `k`-th request of a run. -/
def ServiceModel := Nat → ServiceOutcome

/-- Observable events of a run: the timeout passed to each service request,
in order, and each `progress_callback(current, total)` invocation, in order. -/
structure TransState where
  timeouts : List Nat
  progress : List (Nat × Nat)
deriving DecidableEq

/-- A translator computation: state in, `Except`-wrapped value and state out. -/
abbrev TransM (α : Type) := TransState → Except PyErr α × TransState

instance : Monad TransM where
  pure a := fun s => (.ok a, s)
  bind m f := fun s =>
    match m s with
    | (.ok a, s') => f a s'
    | (.error e, s') => (.error e, s')

/-- Model of `_call_ollama(prompt, timeout)` (lines 180-225): one request, counted and
logged; the reply's `response` string is stripped; `requests` failures map to
`ConnectionError` (connection refused) or `RuntimeError` (timeout, HTTP
error, other request errors). -/
def call_ollama (svc : ServiceModel) (_prompt : List Char) (timeout : Nat) :
    TransM (List Char) :=
  fun s =>
    let s' : TransState := { s with timeouts := s.timeouts ++ [timeout] }
    match svc s.timeouts.length with
    | .ok r => (.ok (pyStrip r), s')
    | .connectionFailure => (.error .connectionError, s')
    | .timeoutFailure => (.error .runtimeError, s')
    | .httpFailure => (.error .runtimeError, s')
    | .requestFailure => (.error .runtimeError, s')

/-- Model of `progress_callback(current, total)` guarded by `if progress_callback:`;
`cb` says whether a callback was supplied. -/
def report_progress (cb : Bool) (current total : Nat) : TransM Unit :=
  fun s => (.ok (), if cb then { s with progress := s.progress ++ [(current, total)] } else s)

/-! ### Prompt construction -/

/-- The delimiter-preservation sentence appended to prompts. -/
def delimiter_instruction : String := " Keep \" || \" delimiters in the same positions."

/-- Model of `_build_translategemma_prompt` (lines 238-261). -/
def build_translategemma_prompt (text : List Char) (source_lang target_lang : String)
    (has_delimiter : Bool) : List Char :=
  let source_code := get_language_code source_lang
  let target_code := get_language_code target_lang
  let source_prompt := get_prompt_language source_lang
  let target_prompt := get_prompt_language target_lang
  let instr := if has_delimiter then delimiter_instruction else ""
  ("You are a professional " ++ source_prompt ++ " (" ++ source_code ++ ") to "
    ++ target_prompt ++ " (" ++ target_code
    ++ ") translator. Your goal is to accurately convey the meaning and nuances of the original "
    ++ source_prompt ++ " text while adhering to " ++ target_prompt
    ++ " grammar, vocabulary, and cultural sensitivities. Produce only the "
    ++ target_prompt ++ " translation, without any additional explanations or commentary."
    ++ instr ++ "\n\n").toList ++ text

/-- The prompt `translate_text` builds for a non-TranslateGemma model
(lines 287-293). -/
def build_plain_prompt (text : List Char) (source_lang target_lang : String)
    (has_linebreaks : Bool) : List Char :=
  let source_prompt := get_prompt_language source_lang
  let target_prompt := get_prompt_language target_lang
  if has_linebreaks then
    ("Translate the following from " ++ source_prompt ++ " to " ++ target_prompt
      ++ ". Only output the translation. Keep \" || \" delimiters in the same positions:\n\n").toList
      ++ text
  else
    ("Translate the following from " ++ source_prompt ++ " to " ++ target_prompt
      ++ ". Only output the translation, nothing else:\n\n").toList ++ text

/-- Model of `_build_batch_prompt` (lines 303-346): delimiter-encode each text, number
them from 1 (`"{i+1}. {text}"`), join with newlines, and frame per model. -/
def build_batch_prompt (tr : OllamaTranslator) (texts : List (List Char))
    (source_lang target_lang : String) : List Char :=
  let preserved_texts := texts.map preserve_linebreaks
  let numbered_lines :=
    List.intercalate ['\n']
      (preserved_texts.enum.map
        (fun p => Nat.toDigits 10 (p.1 + 1) ++ '.' :: ' ' :: p.2))
  let has_delimiters := preserved_texts.any (fun t => decide (LINE_DELIMITER <:+: t))
  let instr := if has_delimiters then delimiter_instruction else ""
  let source_prompt := get_prompt_language source_lang
  let target_prompt := get_prompt_language target_lang
  if is_translategemma tr then
    let source_code := get_language_code source_lang
    let target_code := get_language_code target_lang
    ("You are a professional " ++ source_prompt ++ " (" ++ source_code ++ ") to "
      ++ target_prompt ++ " (" ++ target_code
      ++ ") translator. Your goal is to accurately convey the meaning and nuances of the original "
      ++ source_prompt ++ " text while adhering to " ++ target_prompt
      ++ " grammar, vocabulary, and cultural sensitivities.\n\n"
      ++ "Translate each numbered line below. Return ONLY the translations with the same line "
      ++ "numbers. Keep the exact format \"N. translation\"." ++ instr ++ "\n\n").toList
      ++ numbered_lines
  else
    ("Translate each line from " ++ source_prompt ++ " to " ++ target_prompt
      ++ ".\nReturn ONLY the translations with the same line numbers. Keep the exact format "
      ++ "\"N. translation\"." ++ instr ++ "\n\n").toList ++ numbered_lines

/-- Model of `translate_text(text, source_lang, target_lang)` (lines 263-301):
delimiter-encode when the text has newlines, build the prompt, call the
service with a 60 second timeout, decode the reply.  Exceptions from
`_call_ollama` propagate — there is no `try` here. -/
def translate_text (tr : OllamaTranslator) (svc : ServiceModel) (text : List Char)
    (source_lang target_lang : String) : TransM (List Char) :=
  let has_linebreaks := text.contains '\n'
  let text' := if has_linebreaks then preserve_linebreaks text else text
  let prompt :=
    if is_translategemma tr then
      build_translategemma_prompt text' source_lang target_lang has_linebreaks
    else
      build_plain_prompt text' source_lang target_lang has_linebreaks
  do
    let result ← call_ollama svc prompt 60
    pure (if has_linebreaks then restore_linebreaks result else result)

/-! ### Batch translation (`_try_translate_batch`, `_translate_batch_recursive`,
`translate_segments`) -/

/-- Model of `_try_translate_batch(segments, source_lang, target_lang)` (lines
386-430): empty batch short-circuits to `[]`; otherwise one service call with
timeout `max(120, len(segments) * 5)`, parse and validate, `none` on a
validation failure, and on success the parsed texts (linebreaks restored)
zipped with the input timestamps.  Service exceptions propagate — there is
no `try` here. -/
def try_translate_batch (tr : OllamaTranslator) (svc : ServiceModel)
    (segments : List Segment) (source_lang target_lang : String) :
    TransM (Option (List Segment)) :=
  if segments.isEmpty then pure (some [])
  else
    let texts := segments.map (fun seg => seg.text)
    let prompt := build_batch_prompt tr texts source_lang target_lang
    let timeout := max 120 (segments.length * 5)
    do
      let response ← call_ollama svc prompt timeout
      match parse_batch_response response segments.length with
      | none => pure none
      | some translated_texts =>
        let translated_texts := translated_texts.map restore_linebreaks
        pure (some (List.zipWith
          (fun seg t => { start := seg.start, «end» := seg.«end», text := t })
          segments translated_texts))

/-- Model of `_translate_batch_recursive` (lines 432-504), with an explicit fuel that
makes the halving recursion structural: the wrapper passes
`fuel = segments.length` and every recursive call keeps `length ≤ fuel`, so
the `fuel = 0` branch with two or more segments is unreachable.  Flow: try
the whole batch; on success report progress and return; on a validation
failure either fall back to `translate_text` for a single segment (reporting
progress and rebuilding the segment) or split at `len // 2` and recurse on
the halves.  No exception is caught anywhere in this function. -/
def translate_batch_recursive_fuel (tr : OllamaTranslator) (svc : ServiceModel)
    (source_lang target_lang : String) (cb : Bool) :
    Nat → List Segment → Nat → Nat → TransM (List Segment)
  | _, [], _, _ => pure []
  | 0, _ :: _, _, _ => pure []
  | fuel + 1, seg0 :: rest, progress_offset, total_segments => do
    let segments := seg0 :: rest
    let result ← try_translate_batch tr svc segments source_lang target_lang
    match result with
    | some r => do
      report_progress cb (progress_offset + segments.length) total_segments
      pure r
    | none =>
      match rest with
      | [] => do
        let translated_text ← translate_text tr svc seg0.text source_lang target_lang
        report_progress cb (progress_offset + 1) total_segments
        pure [{ start := seg0.start, «end» := seg0.«end», text := translated_text }]
      | _ :: _ => do
        let mid := segments.length / 2
        let left ← translate_batch_recursive_fuel tr svc source_lang target_lang cb
          fuel (segments.take mid) progress_offset total_segments
        let right ← translate_batch_recursive_fuel tr svc source_lang target_lang cb
          fuel (segments.drop mid) (progress_offset + mid) total_segments
        pure (left ++ right)

/-- Model of `_translate_batch_recursive` at its natural fuel. -/
def translate_batch_recursive (tr : OllamaTranslator) (svc : ServiceModel)
    (segments : List Segment) (source_lang target_lang : String) (cb : Bool)
    (progress_offset total_segments : Nat) : TransM (List Segment) :=
  translate_batch_recursive_fuel tr svc source_lang target_lang cb
    segments.length segments progress_offset total_segments

/-- The `for batch_start in range(0, total, self.batch_size)` loop of
`translate_segments` (lines 538-551), again with structural fuel (the wrapper
passes `total + 1`, enough for any positive step).  `batch_size ≤ 0` gives an
empty `range` in Python for negative steps, modelled by the guard; Python
raises `ValueError` on a zero step, which no caller can produce (the
constructor turns 0 into the configuration default, claim C9). -/
def translate_segments_loop (tr : OllamaTranslator) (svc : ServiceModel)
    (segments : List Segment) (source_lang target_lang : String) (cb : Bool)
    (total : Nat) : Nat → Nat → TransM (List Segment)
  | 0, _ => pure []
  | fuel + 1, batch_start =>
    if batch_start < total ∧ 0 < tr.batch_size then
      let batch := (segments.drop batch_start).take tr.batch_size.toNat
      do
        let batch_result ← translate_batch_recursive tr svc batch source_lang target_lang cb
          batch_start total
        let rest ← translate_segments_loop tr svc segments source_lang target_lang cb total
          fuel (batch_start + tr.batch_size.toNat)
        pure (batch_result ++ rest)
    else pure []

/-- Model of `translate_segments(segments, source_lang, target_lang,
progress_callback)` (lines 506-553): empty input short-circuits; otherwise
process `segments[batch_start:batch_start+batch_size]` for each stride of
`batch_size`, concatenating the results. -/
def translate_segments (tr : OllamaTranslator) (svc : ServiceModel)
    (segments : List Segment) (source_lang target_lang : String) (cb : Bool) :
    TransM (List Segment) :=
  if segments.isEmpty then pure []
  else
    translate_segments_loop tr svc segments source_lang target_lang cb
      segments.length (segments.length + 1) 0

/-- Initial state of a run. -/
def initState : TransState := { timeouts := [], progress := [] }

/-- The translator the repository's tests construct. -/
def testTranslator : OllamaTranslator :=
  ollama_translator_init (some "test-model") (some "http://localhost:11434") (some 3) none
    ⟨"translategemma:4b", "http://localhost:11434", some 50, some "10m"⟩

/-- The three sample segments of `tests/test_translator.py`. -/
def sampleSegments : List Segment :=
  [{ start := 0, «end» := 5 / 2, text := "Hello, world!".toList },
   { start := 5 / 2, «end» := 5, text := "This is a test.".toList },
   { start := 5, «end» := 83 / 10, text := "Testing translation.".toList }]

/-- The timestamp pair of a segment; `translate_segments` must preserve these
positionally (claim C3). -/
def timestamps (g : Segment) : Rat × Rat := (g.start, g.«end»)

/-- A single segment, as in `test_translate_batch_recursive_falls_back_to_single`. -/
def helloSegment : List Segment :=
  [{ start := 0, «end» := 5 / 2, text := "Hello".toList }]

/-- Two segments, the smallest batch the halving step applies to. -/
def twoSegments : List Segment :=
  [{ start := 0, «end» := 1, text := "One".toList },
   { start := 1, «end» := 2, text := "Two".toList }]

/-- A service whose every request fails with a connection error
(`requests.exceptions.ConnectionError`, mapped to `ConnectionError`). -/
def connectionFailureService : ServiceModel := fun _ => .connectionFailure

/-- A service whose every request times out. -/
def timeoutFailureService : ServiceModel := fun _ => .timeoutFailure

/-- A service whose every request fails with an HTTP error. -/
def httpFailureService : ServiceModel := fun _ => .httpFailure

/-- A service that always answers, but never in the numbered format. -/
def garbageService : ServiceModel := fun _ => .ok "garbage".toList

/-- A service that answers the first request correctly for a one-line batch
and then becomes unreachable. -/
def thenUnreachableService : ServiceModel :=
  fun k => if k = 0 then .ok "1. X".toList else .connectionFailure

/-- A translator with `batch_size = 1`, so each segment is its own batch. -/
def batchOneTranslator : OllamaTranslator :=
  { model := "test-model", base_url := "http://localhost:11434", batch_size := 1,
    keep_alive := "10m" }

/-! ## Theorems -/

theorem TransM.pure_apply {α : Type} (a : α) (s : TransState) :
    (pure a : TransM α) s = (.ok a, s) := rfl

theorem TransM.bind_apply {α β : Type} (m : TransM α) (f : α → TransM β) (s : TransState) :
    (m >>= f) s =
      match m s with
      | (.ok a, s') => f a s'
      | (.error e, s') => (.error e, s') := rfl

theorem infix_cons_intro {l t : List Char} (c : Char) (h : l <:+: t) : l <:+: c :: t := by
  obtain ⟨s, u, rfl⟩ := h
  exact ⟨c :: s, u, rfl⟩

theorem infix_of_pre {l t : List Char} (h : l <+: t) : l <:+: t := by
  obtain ⟨u, rfl⟩ := h
  exact ⟨[], u, rfl⟩

theorem restore_cons_ne_space (c : Char) (t : List Char) (h : c ≠ ' ') :
    restore_linebreaks (c :: t) = c :: restore_linebreaks t := by
  rw [restore_linebreaks.eq_def]
  split
  · rename_i heq; injection heq with h1 _; exact absurd h1 h
  · rename_i heq; injection heq with h1 h2; rw [h1, h2]
  · rename_i heq; exact absurd heq (by simp)

theorem restore_cons_space (t : List Char) (h : t.take 3 ≠ ['|', '|', ' ']) :
    restore_linebreaks (' ' :: t) = ' ' :: restore_linebreaks t := by
  rw [restore_linebreaks.eq_def]
  split
  · rename_i heq
    injection heq with h1 h2
    subst h2
    simp at h
  · rename_i heq; injection heq with h1 h2; rw [h1, h2]
  · rename_i heq; exact absurd heq (by simp)

theorem preserve_cons_ne_nl (c : Char) (t : List Char) (h : c ≠ '\n') :
    preserve_linebreaks (c :: t) = c :: preserve_linebreaks t := by
  rw [preserve_linebreaks.eq_def]
  split
  · rename_i heq; exact absurd heq (by simp)
  · rename_i heq; injection heq with h1 h2; exact absurd h1 h
  · rename_i heq; injection heq with h1 h2; rw [h1, h2]

theorem preserve_take3 (r : List Char) (h : (preserve_linebreaks r).take 3 = ['|', '|', ' ']) :
    ['|', '|', ' '] <+: r ∨ ['|', '|', '\n'] <+: r := by
  match r with
  | [] => simp [preserve_linebreaks] at h
  | a :: r1 =>
    by_cases ha : a = '\n'
    · subst ha; simp [preserve_linebreaks] at h
    · rw [preserve_cons_ne_nl a r1 ha] at h
      rw [List.take_succ_cons] at h
      rw [List.cons_eq_cons] at h
      obtain ⟨rfl, h⟩ := h
      match r1 with
      | [] => simp [preserve_linebreaks] at h
      | b :: r2 =>
        by_cases hb : b = '\n'
        · subst hb; simp [preserve_linebreaks] at h
        · rw [preserve_cons_ne_nl b r2 hb] at h
          rw [List.take_succ_cons] at h
          rw [List.cons_eq_cons] at h
          obtain ⟨rfl, h⟩ := h
          match r2 with
          | [] => simp [preserve_linebreaks] at h
          | d :: r3 =>
            by_cases hd : d = '\n'
            · subst hd
              exact Or.inr ⟨r3, rfl⟩
            · rw [preserve_cons_ne_nl d r3 hd] at h
              rw [List.take_succ_cons] at h
              rw [List.cons_eq_cons] at h
              obtain ⟨rfl, -⟩ := h
              exact Or.inl ⟨r3, rfl⟩

/-- C4 (counterexample): the text `" ||\n"` does not contain the literal
delimiter `" || "`, yet restoring after preserving is not the identity on it:
preserving yields `" || || "` wherein the restore scan finds a delimiter
occurrence three characters early, producing `"\n|| "`. -/
theorem c4_roundtrip_counterexample :
    ¬ LINE_DELIMITER <:+: [' ', '|', '|', '\n']
    ∧ restore_linebreaks (preserve_linebreaks [' ', '|', '|', '\n']) ≠ [' ', '|', '|', '\n'] := by
  decide

/-- C4 (amended): for every text that contains neither the literal delimiter
`" || "` nor the substring `" ||\n"` (a newline immediately preceded by
`" ||"`), restoring line breaks after preserving them is the identity,
including when the text contains embedded newlines. -/
theorem c4_roundtrip_amended (x : List Char)
    (h1 : ¬ LINE_DELIMITER <:+: x)
    (h2 : ¬ [' ', '|', '|', '\n'] <:+: x) :
    restore_linebreaks (preserve_linebreaks x) = x := by
  induction x with
  | nil => rfl
  | cons c t ih =>
    have h1' : ¬ LINE_DELIMITER <:+: t := fun h => h1 (infix_cons_intro c h)
    have h2' : ¬ [' ', '|', '|', '\n'] <:+: t := fun h => h2 (infix_cons_intro c h)
    by_cases hc : c = '\n'
    · subst hc
      show restore_linebreaks (' ' :: '|' :: '|' :: ' ' :: preserve_linebreaks t) = _
      rw [show restore_linebreaks (' ' :: '|' :: '|' :: ' ' :: preserve_linebreaks t)
            = '\n' :: restore_linebreaks (preserve_linebreaks t) from rfl]
      rw [ih h1' h2']
    · rw [preserve_cons_ne_nl c t hc]
      by_cases hs : c = ' '
      · subst hs
        have hch : (preserve_linebreaks t).take 3 ≠ ['|', '|', ' '] := by
          intro hEq
          rcases preserve_take3 t hEq with hp | hp
          · obtain ⟨u, rfl⟩ := hp
            exact h1 (infix_of_pre ⟨u, rfl⟩)
          · obtain ⟨u, rfl⟩ := hp
            exact h2 (infix_of_pre ⟨u, rfl⟩)
        rw [restore_cons_space _ hch, ih h1' h2']
      · rw [restore_cons_ne_space c _ hs, ih h1' h2']

/-- C4 (witness): the round trip at the multi-line caption `"Hello\nworld"`. -/
theorem c4_roundtrip_witness :
    restore_linebreaks (preserve_linebreaks "Hello\nworld".toList) = "Hello\nworld".toList :=
  c4_roundtrip_amended "Hello\nworld".toList (by decide) (by decide)
theorem update_isSome (m : Nat → Option (List Char)) (line : List Char) (i : Nat) :
    (updateTranslations m line i).isSome
      ↔ (matchNumberedLine (pyStrip line)).map Prod.fst = some i ∨ (m i).isSome := by
  unfold updateTranslations
  cases hm : matchNumberedLine (pyStrip line) with
  | none => simp
  | some p =>
    obtain ⟨num, text⟩ := p
    by_cases hi : i = num
    · subst hi; simp
    · simp [hi, Ne.symm hi]

theorem collect_aux (lines : List (List Char)) (m0 : Nat → Option (List Char)) (i : Nat) :
    ((lines.foldl updateTranslations m0) i).isSome
      ↔ (∃ l ∈ lines, (matchNumberedLine (pyStrip l)).map Prod.fst = some i) ∨ (m0 i).isSome := by
  induction lines generalizing m0 with
  | nil => simp
  | cons l ls ih =>
    rw [List.foldl_cons, ih, update_isSome]
    simp [or_assoc, or_comm, or_left_comm]

theorem collect_isSome (response : List Char) (i : Nat) :
    (collectTranslations ((pyStrip response).splitOn '\n') i).isSome ↔ line_has_number response i := by
  unfold collectTranslations line_has_number
  rw [collect_aux]
  simp

theorem gather_isSome (m : Nat → Option (List Char)) :
    ∀ (count start : Nat),
      (gatherTranslations m start count).isSome ↔ ∀ j, j < count → (m (start + j)).isSome := by
  intro count
  induction count with
  | zero => simp [gatherTranslations]
  | succ k ih =>
    intro start
    unfold gatherTranslations
    cases hm : m start with
    | none =>
      simp only [Option.isSome_none]
      constructor
      · intro h; exact absurd h (by simp)
      · intro h
        have := h 0 (Nat.succ_pos k)
        rw [Nat.add_zero, hm] at this
        simp at this
    | some t =>
      have hmap : (Option.map (fun ts => t :: ts) (gatherTranslations m (start + 1) k)).isSome
          = (gatherTranslations m (start + 1) k).isSome := by
        cases gatherTranslations m (start + 1) k <;> rfl
      rw [hmap, ih (start + 1)]
      constructor
      · intro h j hj
        cases j with
        | zero => rw [Nat.add_zero, hm]; rfl
        | succ j' =>
          have := h j' (by omega)
          rw [show start + 1 + j' = start + (j' + 1) by omega] at this
          exact this
      · intro h j hj
        have := h (j + 1) (by omega)
        rw [show start + (j + 1) = start + 1 + j by omega] at this
        exact this

theorem gather_get (m : Nat → Option (List Char)) :
    ∀ (count start : Nat) (ts : List (List Char)),
      gatherTranslations m start count = some ts →
      ts.length = count ∧ ∀ j, j < count → ts[j]? = m (start + j) := by
  intro count
  induction count with
  | zero =>
    intro start ts h
    simp [gatherTranslations] at h
    subst h
    simp
  | succ k ih =>
    intro start ts h
    unfold gatherTranslations at h
    cases hm : m start with
    | none => rw [hm] at h; simp at h
    | some t =>
      rw [hm] at h
      simp only [Option.map_eq_some'] at h
      obtain ⟨ts', hts', rfl⟩ := h
      obtain ⟨hlen, hget⟩ := ih (start + 1) ts' hts'
      refine ⟨by simp [hlen], ?_⟩
      intro j hj
      cases j with
      | zero => simpa using hm.symm
      | succ j' =>
        rw [List.getElem?_cons_succ]
        rw [show start + (j' + 1) = start + 1 + j' by omega]
        exact hget j' (by omega)

/-- C5: `_parse_batch_response` succeeds exactly when every integer in
`1..N` appears as the line number of a line matching the pattern
`^(\d+)\.\s*(.+)$` in the response; on success it returns the `N` mapped
texts in index order, on any gap it returns `None` (never a partial list),
and non-matching lines are ignored (they can only contribute by matching).
The concrete conjuncts replay the repository's own parser tests. -/
theorem c5_parse_batch_response_complete :
    (∀ (response : List Char) (n : Nat),
      ((parse_batch_response response n).isSome
          ↔ ∀ i, 1 ≤ i → i ≤ n → line_has_number response i)
        ∧ ∀ ts, parse_batch_response response n = some ts →
            ts.length = n ∧ ∀ j, j < n →
              ts[j]? = collectTranslations ((pyStrip response).splitOn '\n') (j + 1))
    ∧ parse_batch_response "1. 你好\n2. 世界\n3. 测试".toList 3
        = some ["你好".toList, "世界".toList, "测试".toList]
    ∧ parse_batch_response "1. 你好\n3. 测试".toList 3 = none
    ∧ parse_batch_response "Invalid response without numbers".toList 3 = none := by
  refine ⟨?_, by decide, by decide, by decide⟩
  intro response n
  constructor
  · unfold parse_batch_response
    rw [gather_isSome]
    constructor
    · intro h i hi1 hi2
      have := h (i - 1) (by omega)
      rw [show 1 + (i - 1) = i by omega] at this
      exact (collect_isSome response i).mp this
    · intro h j hj
      exact (collect_isSome response (1 + j)).mpr (h (1 + j) (by omega) (by omega))
  · intro ts hts
    unfold parse_batch_response at hts
    obtain ⟨hlen, hget⟩ := gather_get _ n 1 ts hts
    exact ⟨hlen, fun j hj => by rw [hget j hj, Nat.add_comm]⟩
theorem takeWhile_append_all {p : Char → Bool} {l : List Char} (r : List Char)
    (h : ∀ c ∈ l, p c = true) :
    (l ++ r).takeWhile p = l ++ r.takeWhile p := by
  induction l with
  | nil => simp
  | cons a t ih =>
    have ha := h a (by simp)
    simp only [List.cons_append, List.takeWhile_cons, ha, if_true]
    rw [ih (fun c hc => h c (by simp [hc]))]

theorem dropWhile_append_all {p : Char → Bool} {l : List Char} (r : List Char)
    (h : ∀ c ∈ l, p c = true) :
    (l ++ r).dropWhile p = r.dropWhile p := by
  induction l with
  | nil => simp
  | cons a t ih =>
    have ha := h a (by simp)
    simp only [List.cons_append, List.dropWhile_cons, ha, if_true]
    exact ih (fun c hc => h c (by simp [hc]))

theorem digit_not_ws (c : Char) (h : c.isDigit = true) : c.isWhitespace = false := by
  by_contra hw
  rw [Bool.not_eq_false] at hw
  simp only [Char.isWhitespace] at hw
  rcases Bool.or_eq_true_iff.mp hw with h1 | h1
  · rcases Bool.or_eq_true_iff.mp h1 with h2 | h2
    · rcases Bool.or_eq_true_iff.mp h2 with h3 | h3
      · rw [show c = ' ' from by simpa using h3] at h; exact absurd h (by decide)
      · rw [show c = '\t' from by simpa using h3] at h; exact absurd h (by decide)
    · rw [show c = '\r' from by simpa using h2] at h; exact absurd h (by decide)
  · rw [show c = '\n' from by simpa using h1] at h; exact absurd h (by decide)

theorem matchNumberedLine_no_content (ds ws : List Char) (hne : ds ≠ []) (hd : ∀ c ∈ ds, c.isDigit = true)
    (hw : ∀ c ∈ ws, c.isWhitespace = true) :
    matchNumberedLine (pyStrip (ds ++ '.' :: ws)) = none := by
  have hstrip : pyStrip (ds ++ '.' :: ws) = ds ++ ['.'] := by
    unfold pyStrip
    have h1 : (ds ++ '.' :: ws).dropWhile Char.isWhitespace = ds ++ '.' :: ws := by
      cases ds with
      | nil => exact absurd rfl hne
      | cons a t =>
        have ha : a.isWhitespace = false := digit_not_ws a (hd a (by simp))
        simp [List.dropWhile_cons, ha]
    rw [h1]
    rw [show ds ++ '.' :: ws = (ds ++ ['.']) ++ ws by simp]
    rw [List.reverse_append]
    rw [dropWhile_append_all _ (fun c hc => hw c (List.mem_reverse.mp hc))]
    rw [List.reverse_append]
    have hdot : ('.' : Char).isWhitespace = false := by decide
    simp only [List.reverse_cons, List.reverse_nil, List.nil_append, List.singleton_append,
      List.dropWhile_cons, hdot, if_false]
    simp
  rw [hstrip]
  unfold matchNumberedLine
  rw [takeWhile_append_all _ hd, dropWhile_append_all _ hd]
  have hdot2 : ('.' : Char).isDigit = false := by decide
  simp [List.takeWhile_cons, hdot2, hne]

/-- C10: a response line that is a number and a period with nothing after
them (`"2."`, or `"2. "` with only trailing whitespace — the code strips the
line before matching) does not match the parser's pattern, so a batch
response whose expected index carries an empty translation fails validation
as a whole instead of yielding an empty string for that index. -/
theorem c10_numbered_line_without_content :
    (∀ ds ws : List Char, ds ≠ [] → (∀ c ∈ ds, c.isDigit = true) →
      (∀ c ∈ ws, c.isWhitespace = true) →
      matchNumberedLine (pyStrip (ds ++ '.' :: ws)) = none)
    ∧ matchNumberedLine (pyStrip "2.".toList) = none
    ∧ matchNumberedLine (pyStrip "2. ".toList) = none
    ∧ parse_batch_response "1. A\n2. \n3. C".toList 3 = none := by
  exact ⟨matchNumberedLine_no_content, by decide, by decide, by decide⟩
/-- C6: `parse_language` lowercases and strips its input, checks it first
against the name table `LANGUAGE_CODES` and then against the code table
`LANGUAGE_NAMES`, returns the title-cased canonical name paired with the code
on a hit, and returns `None` (not an error) on a miss.  The concrete
conjuncts exercise trimming, title-casing, the code path and a miss. -/
theorem c6_parse_language_resolution :
    (∀ language : String,
      (parse_language language = none
          ↔ lookupStr (pyStrip (pyLower language.toList)) LANGUAGE_CODES = none
            ∧ lookupStr (pyStrip (pyLower language.toList)) LANGUAGE_NAMES = none)
        ∧ (∀ code, lookupStr (pyStrip (pyLower language.toList)) LANGUAGE_CODES = some code →
            parse_language language
              = some (pyTitle (pyStrip (pyLower language.toList)), code))
        ∧ (lookupStr (pyStrip (pyLower language.toList)) LANGUAGE_CODES = none →
            ∀ name, lookupStr (pyStrip (pyLower language.toList)) LANGUAGE_NAMES = some name →
              parse_language language
                = some (name, String.mk (pyStrip (pyLower language.toList)))))
    ∧ parse_language "  KOREAN " = some ("Korean", "ko")
    ∧ parse_language "ZH" = some ("Chinese", "zh")
    ∧ parse_language "klingon" = none := by
  refine ⟨?_, by decide, by decide, by decide⟩
  intro language
  cases hc : lookupStr (pyStrip (pyLower language.toList)) LANGUAGE_CODES with
  | some code =>
    simp only [String.toList] at hc
    simp [parse_language, String.toList, hc]
  | none =>
    cases hn : lookupStr (pyStrip (pyLower language.toList)) LANGUAGE_NAMES with
    | some name =>
      simp only [String.toList] at hc hn
      simp [parse_language, String.toList, hc, hn]
    | none =>
      simp only [String.toList] at hc hn
      simp [parse_language, String.toList, hc, hn]

/-- C9: `OllamaTranslator.__init__` treats every falsy argument as absent —
`batch_size=0` and empty-string `model`, `base_url`, `keep_alive` all fall
back to the configuration value (with `.get` defaults 50 and `"10m"`), so a
constructed translator never has `batch_size = 0` when the configuration
default is positive. -/
theorem c9_falsy_constructor_defaults :
    (∀ m b k cfg,
      (ollama_translator_init m b (some 0) k cfg).batch_size = cfg.batch_size.getD 50)
    ∧ (∀ b bs k cfg, (ollama_translator_init (some "") b bs k cfg).model = cfg.model)
    ∧ (∀ m bs k cfg, (ollama_translator_init m (some "") bs k cfg).base_url = cfg.base_url)
    ∧ (∀ m b bs cfg,
        (ollama_translator_init m b bs (some "") cfg).keep_alive = cfg.keep_alive.getD "10m")
    ∧ (∀ m b bs k cfg, 0 < cfg.batch_size.getD 50 →
        (ollama_translator_init m b bs k cfg).batch_size ≠ 0) := by
  refine ⟨?_, ?_, ?_, ?_, ?_⟩
  · intro m b k cfg; simp [ollama_translator_init, pyOrInt]
  · intro b bs k cfg; simp [ollama_translator_init, pyOrStr]
  · intro m bs k cfg; simp [ollama_translator_init, pyOrStr]
  · intro m b bs cfg; simp [ollama_translator_init, pyOrStr]
  · intro m b bs k cfg hpos
    unfold ollama_translator_init pyOrInt
    cases bs with
    | none => simp; omega
    | some v =>
      by_cases hv : v = 0
      · subst hv; simp; omega
      · simp [hv]

theorem call_ollama_state (svc : ServiceModel) (p : List Char) (t : Nat) (s : TransState) :
    (call_ollama svc p t s).2 = { s with timeouts := s.timeouts ++ [t] } := by
  unfold call_ollama
  cases svc s.timeouts.length <;> rfl

theorem translate_text_state (tr : OllamaTranslator) (svc : ServiceModel) (text : List Char)
    (source_lang target_lang : String) (s : TransState) :
    (translate_text tr svc text source_lang target_lang s).2
      = { s with timeouts := s.timeouts ++ [60] } := by
  unfold translate_text
  rw [TransM.bind_apply]
  have hstate := call_ollama_state svc
    (if is_translategemma tr then
        build_translategemma_prompt (if text.contains '\n' then preserve_linebreaks text else text)
          source_lang target_lang (text.contains '\n')
      else
        build_plain_prompt (if text.contains '\n' then preserve_linebreaks text else text)
          source_lang target_lang (text.contains '\n')) 60 s
  cases hc : call_ollama svc _ 60 s with
  | mk res s2 =>
    rw [hc] at hstate
    cases res with
    | ok a => simp [TransM.pure_apply]; exact hstate
    | error e => simpa using hstate

theorem try_translate_batch_state (tr : OllamaTranslator) (svc : ServiceModel)
    (segments : List Segment) (source_lang target_lang : String) (s : TransState)
    (hne : segments ≠ []) :
    (try_translate_batch tr svc segments source_lang target_lang s).2
      = { s with timeouts := s.timeouts ++ [max 120 (5 * segments.length)] } := by
  unfold try_translate_batch
  have hempty : segments.isEmpty = false := by
    cases segments with
    | nil => exact absurd rfl hne
    | cons a t => rfl
  rw [hempty]
  simp only [Bool.false_eq_true, if_false]
  rw [TransM.bind_apply]
  rw [Nat.mul_comm segments.length 5] at *
  have hstate := call_ollama_state svc
    (build_batch_prompt tr (segments.map (fun seg => seg.text)) source_lang target_lang)
    (max 120 (5 * segments.length)) s
  cases hc : call_ollama svc _ (max 120 (5 * segments.length)) s with
  | mk res s2 =>
    rw [hc] at hstate
    cases res with
    | ok a =>
      cases hp : parse_batch_response a segments.length with
      | none => simp [hp, TransM.pure_apply]; exact hstate
      | some ts => simp [hp, TransM.pure_apply]; exact hstate
    | error e => simpa using hstate

/-- C7: every generation-service call made for a nonempty batch of `k`
segments uses a timeout of exactly `max(120, 5 * k)` seconds (the one call
`_try_translate_batch` issues), and every single-segment call made through
`translate_text` uses a timeout of exactly 60 seconds, for every translator,
service behaviour and prior state. -/
theorem c7_timeout_values :
    (∀ (tr : OllamaTranslator) (svc : ServiceModel) (segments : List Segment)
        (source_lang target_lang : String) (s : TransState), segments ≠ [] →
      (try_translate_batch tr svc segments source_lang target_lang s).2.timeouts
        = s.timeouts ++ [max 120 (5 * segments.length)])
    ∧ (∀ (tr : OllamaTranslator) (svc : ServiceModel) (text : List Char)
        (source_lang target_lang : String) (s : TransState),
      (translate_text tr svc text source_lang target_lang s).2.timeouts
        = s.timeouts ++ [60]) := by
  constructor
  · intro tr svc segments source_lang target_lang s hne
    rw [try_translate_batch_state tr svc segments source_lang target_lang s hne]
  · intro tr svc text source_lang target_lang s
    rw [translate_text_state tr svc text source_lang target_lang s]

theorem zipWith_timestamps (segs : List Segment) (ts : List (List Char))
    (h : ts.length = segs.length) :
    (List.zipWith (fun seg t => ({ start := seg.start, «end» := seg.«end», text := t } : Segment))
        segs ts).map timestamps
      = segs.map timestamps := by
  induction segs generalizing ts with
  | nil => simp
  | cons a l ih =>
    cases ts with
    | nil => simp at h
    | cons t ts' =>
      simp only [List.length_cons] at h
      simp only [List.zipWith_cons_cons, List.map_cons]
      rw [ih ts' (by omega)]
      rfl

theorem parse_batch_response_length (response : List Char) (n : Nat) (ts : List (List Char))
    (h : parse_batch_response response n = some ts) : ts.length = n :=
  (gather_get _ n 1 ts h).1

theorem try_translate_batch_shape (tr : OllamaTranslator) (svc : ServiceModel)
    (segments : List Segment) (source_lang target_lang : String) (s s' : TransState)
    (r : List Segment)
    (h : try_translate_batch tr svc segments source_lang target_lang s = (.ok (some r), s')) :
    r.map timestamps = segments.map timestamps := by
  unfold try_translate_batch at h
  by_cases he : segments.isEmpty
  · rw [if_pos he] at h
    rw [TransM.pure_apply] at h
    injection h with h1 _
    injection h1 with h2
    injection h2 with h3
    have : segments = [] := List.isEmpty_iff.mp he
    subst this
    rw [← h3]
  · rw [if_neg he] at h
    rw [TransM.bind_apply] at h
    cases hc : call_ollama svc
        (build_batch_prompt tr (segments.map (fun seg => seg.text)) source_lang target_lang)
        (max 120 (segments.length * 5)) s with
    | mk resA sA =>
      rw [hc] at h
      cases resA with
      | error e => simp at h
      | ok a =>
        simp only at h
        cases hp : parse_batch_response a segments.length with
        | none => rw [hp] at h; simp [TransM.pure_apply] at h
        | some ts =>
          rw [hp] at h
          simp only [TransM.pure_apply] at h
          injection h with h1 _
          injection h1 with h2
          injection h2 with h3
          rw [← h3]
          exact zipWith_timestamps segments (ts.map restore_linebreaks)
            (by rw [List.length_map]; exact parse_batch_response_length a segments.length ts hp)

theorem tbr_shape (tr : OllamaTranslator) (svc : ServiceModel)
    (source_lang target_lang : String) (cb : Bool) :
    ∀ (fuel : Nat) (segments : List Segment), segments.length ≤ fuel →
      ∀ (progress_offset total_segments : Nat) (s s' : TransState) (r : List Segment),
        translate_batch_recursive_fuel tr svc source_lang target_lang cb fuel segments
          progress_offset total_segments s = (.ok r, s') →
        r.map timestamps = segments.map timestamps := by
  intro fuel
  induction fuel with
  | zero =>
    intro segments hlen offset total s s' r h
    cases segments with
    | nil =>
      simp only [translate_batch_recursive_fuel, TransM.pure_apply] at h
      injection h with h1 _
      injection h1 with h2
      rw [← h2]
    | cons a t => simp at hlen
  | succ fuel ih =>
    intro segments hlen offset total s s' r h
    cases segments with
    | nil =>
      simp only [translate_batch_recursive_fuel, TransM.pure_apply] at h
      injection h with h1 _
      injection h1 with h2
      rw [← h2]
    | cons seg0 rest =>
      simp only [translate_batch_recursive_fuel] at h
      rw [TransM.bind_apply] at h
      cases hA : try_translate_batch tr svc (seg0 :: rest) source_lang target_lang s with
      | mk resA sA =>
        rw [hA] at h
        cases resA with
        | error e => simp at h
        | ok o =>
          simp only at h
          cases o with
          | some r0 =>
            simp only [report_progress, TransM.bind_apply, TransM.pure_apply] at h
            injection h with h1 _
            injection h1 with h2
            rw [← h2]
            exact try_translate_batch_shape tr svc (seg0 :: rest) source_lang target_lang
              s sA r0 hA
          | none =>
            simp only at h
            cases rest with
            | nil =>
              simp only at h
              rw [TransM.bind_apply] at h
              cases hT : translate_text tr svc seg0.text source_lang target_lang sA with
              | mk resT sT =>
                rw [hT] at h
                cases resT with
                | error e => simp at h
                | ok txt =>
                  simp only [report_progress, TransM.bind_apply, TransM.pure_apply] at h
                  injection h with h1 _
                  injection h1 with h2
                  rw [← h2]
                  rfl
            | cons seg1 rest' =>
              simp only at h
              rw [TransM.bind_apply] at h
              have hmidlt : (seg0 :: seg1 :: rest').length / 2 < (seg0 :: seg1 :: rest').length :=
                Nat.div_lt_self (by simp) (by omega)
              have hmidge : 1 ≤ (seg0 :: seg1 :: rest').length / 2 :=
                (Nat.le_div_iff_mul_le (by omega)).mpr (by simp)
              cases hL : translate_batch_recursive_fuel tr svc source_lang target_lang cb fuel
                  ((seg0 :: seg1 :: rest').take ((seg0 :: seg1 :: rest').length / 2))
                  offset total sA with
              | mk resL sL =>
                rw [hL] at h
                cases resL with
                | error e => simp at h
                | ok l1 =>
                  simp only at h
                  rw [TransM.bind_apply] at h
                  cases hR : translate_batch_recursive_fuel tr svc source_lang target_lang cb fuel
                      ((seg0 :: seg1 :: rest').drop ((seg0 :: seg1 :: rest').length / 2))
                      (offset + (seg0 :: seg1 :: rest').length / 2) total sL with
                  | mk resR sR =>
                    rw [hR] at h
                    cases resR with
                    | error e => simp at h
                    | ok r1 =>
                      simp only [TransM.pure_apply] at h
                      injection h with h1 _
                      injection h1 with h2
                      rw [← h2]
                      have hlenlist : (seg0 :: seg1 :: rest').length = rest'.length + 2 := by simp
                      have hl := ih ((seg0 :: seg1 :: rest').take ((seg0 :: seg1 :: rest').length / 2))
                        (by rw [List.length_take]; omega) offset total sA sL l1 hL
                      have hr := ih ((seg0 :: seg1 :: rest').drop ((seg0 :: seg1 :: rest').length / 2))
                        (by rw [List.length_drop]; omega)
                        (offset + (seg0 :: seg1 :: rest').length / 2) total sL sR r1 hR
                      rw [List.map_append, hl, hr, ← List.map_append, List.take_append_drop]

theorem loop_shape (tr : OllamaTranslator) (svc : ServiceModel) (segments : List Segment)
    (source_lang target_lang : String) (cb : Bool) (hbs : 0 < tr.batch_size) :
    ∀ (fuel batch_start : Nat) (s s' : TransState) (r : List Segment),
      segments.length - batch_start < fuel →
      translate_segments_loop tr svc segments source_lang target_lang cb segments.length
        fuel batch_start s = (.ok r, s') →
      r.map timestamps = (segments.drop batch_start).map timestamps := by
  intro fuel
  induction fuel with
  | zero => intro batch_start s s' r hf; omega
  | succ fuel ih =>
    intro batch_start s s' r hf h
    have hbs' : 0 < tr.batch_size.toNat := by omega
    unfold translate_segments_loop at h
    by_cases hg : batch_start < segments.length ∧ 0 < tr.batch_size
    · rw [if_pos hg] at h
      rw [TransM.bind_apply] at h
      cases hB : translate_batch_recursive tr svc
          ((segments.drop batch_start).take tr.batch_size.toNat) source_lang target_lang cb
          batch_start segments.length s with
      | mk resB sB =>
        rw [hB] at h
        cases resB with
        | error e => simp at h
        | ok l1 =>
          simp only at h
          rw [TransM.bind_apply] at h
          cases hR : translate_segments_loop tr svc segments source_lang target_lang cb
              segments.length fuel (batch_start + tr.batch_size.toNat) sB with
          | mk resR sR =>
            rw [hR] at h
            cases resR with
            | error e => simp at h
            | ok r1 =>
              simp only [TransM.pure_apply] at h
              injection h with h1 _
              injection h1 with h2
              rw [← h2]
              have hl := tbr_shape tr svc source_lang target_lang cb
                ((segments.drop batch_start).take tr.batch_size.toNat).length
                ((segments.drop batch_start).take tr.batch_size.toNat) (le_refl _)
                batch_start segments.length s sB l1 hB
              have hr := ih (batch_start + tr.batch_size.toNat) sB sR r1 (by omega) hR
              rw [List.map_append, hl, hr]
              rw [show segments.drop (batch_start + tr.batch_size.toNat)
                    = (segments.drop batch_start).drop tr.batch_size.toNat by
                  rw [List.drop_drop, Nat.add_comm]]
              rw [← List.map_append, List.take_append_drop]
    · rw [if_neg hg] at h
      rw [TransM.pure_apply] at h
      injection h with h1 _
      injection h1 with h2
      rw [← h2]
      have : segments.length ≤ batch_start := by
        rcases Classical.em (batch_start < segments.length) with hlt | hge
        · exact absurd ⟨hlt, hbs⟩ hg
        · omega
      rw [List.drop_eq_nil_of_le this]

theorem translate_segments_shape (tr : OllamaTranslator) (svc : ServiceModel)
    (segments : List Segment) (source_lang target_lang : String) (cb : Bool)
    (s s' : TransState) (r : List Segment) (hbs : 0 < tr.batch_size)
    (h : translate_segments tr svc segments source_lang target_lang cb s = (.ok r, s')) :
    r.map timestamps = segments.map timestamps := by
  unfold translate_segments at h
  by_cases he : segments.isEmpty
  · rw [if_pos he] at h
    rw [TransM.pure_apply] at h
    injection h with h1 _
    injection h1 with h2
    rw [← h2, List.isEmpty_iff.mp he]
  · rw [if_neg he] at h
    have := loop_shape tr svc segments source_lang target_lang cb hbs
      (segments.length + 1) 0 s s' r (by omega) h
    simpa using this

/-- C1: (evaluation at the failing input) for a single-segment input under a
service whose every call raises a connection error, `_translate_batch_recursive`
does not return a segment with the original text: the `ConnectionError` from
the batch attempt propagates out (the single-segment fallback is never even
reached — exactly one call, the 120-second batch call, is made), no progress
is reported, and the same exception escapes `translate_segments`.  The claim
(and the repository's own tests
`test_translate_batch_recursive_keeps_original_on_total_failure` and
`test_try_translate_batch_returns_none_on_connection_error`) expect the
exception to be swallowed and `[{start: 0, end: 2.5, text: "Hello"}]`
returned with progress advancing. -/
theorem c1_single_segment_connection_failure_raises :
    translate_batch_recursive testTranslator connectionFailureService helloSegment
      "English" "Chinese" true 0 1 initState
      = (.error .connectionError, { timeouts := [120], progress := [] })
    ∧ translate_segments testTranslator connectionFailureService helloSegment
        "English" "Chinese" true initState
      = (.error .connectionError, { timeouts := [120], progress := [] }) :=
  ⟨rfl, rfl⟩

/-- C2: (evaluation at the failing input) for a batch of two segments, a
connection, timeout or HTTP failure of the generation-service call is *not*
treated like a parse failure: the exception propagates out of the batch
attempt after a single service call (one logged 120-second timeout, no
recursion), whereas a validation failure on the very same batch does trigger
the split — five calls, two leaf fallbacks, progress reported twice. -/
theorem c2_batch_service_exception_propagates :
    translate_batch_recursive testTranslator connectionFailureService twoSegments
      "English" "Chinese" true 0 2 initState
      = (.error .connectionError, { timeouts := [120], progress := [] })
    ∧ translate_batch_recursive testTranslator timeoutFailureService twoSegments
        "English" "Chinese" true 0 2 initState
      = (.error .runtimeError, { timeouts := [120], progress := [] })
    ∧ translate_batch_recursive testTranslator httpFailureService twoSegments
        "English" "Chinese" true 0 2 initState
      = (.error .runtimeError, { timeouts := [120], progress := [] })
    ∧ translate_batch_recursive testTranslator garbageService twoSegments
        "English" "Chinese" true 0 2 initState
      = (.ok [{ start := 0, «end» := 1, text := "garbage".toList },
              { start := 1, «end» := 2, text := "garbage".toList }],
         { timeouts := [120, 120, 60, 120, 60], progress := [(1, 2), (2, 2)] }) :=
  ⟨rfl, rfl, rfl, rfl⟩

/-- C3: whenever `translate_segments` returns a list, that list has exactly
the input's length and order with identical `start`/`end` values (only `text`
may differ) — for every translator with positive batch size, every service
behaviour and every input.  But it does not hold "regardless of service
behavior": under total service failure the call raises `ConnectionError`
instead of returning a list (first conjunct; the spec and the repository's
tests expect a fully-populated list even then).  The last conjunct shows a
successful run preserving the three sample timestamps. -/
theorem c3_shape_invariant :
    translate_segments testTranslator connectionFailureService sampleSegments
      "English" "Chinese" true initState
      = (.error .connectionError, { timeouts := [120], progress := [] })
    ∧ (∀ (tr : OllamaTranslator) (svc : ServiceModel) (segments : List Segment)
        (source_lang target_lang : String) (cb : Bool) (s s' : TransState) (r : List Segment),
        0 < tr.batch_size →
        translate_segments tr svc segments source_lang target_lang cb s = (.ok r, s') →
        r.map timestamps = segments.map timestamps)
    ∧ translate_segments testTranslator (fun _ => .ok "1. T1\n2. T2\n3. T3".toList)
        sampleSegments "English" "Chinese" true initState
      = (.ok [{ start := 0, «end» := 5 / 2, text := "T1".toList },
              { start := 5 / 2, «end» := 5, text := "T2".toList },
              { start := 5, «end» := 83 / 10, text := "T3".toList }],
         { timeouts := [120], progress := [(3, 3)] }) :=
  ⟨rfl,
   fun tr svc segments source_lang target_lang cb s s' r hbs h =>
     translate_segments_shape tr svc segments source_lang target_lang cb s s' r hbs h,
   rfl⟩
theorem mem_of_getLast?_eq {α : Type} {l : List α} {x : α} (h : l.getLast? = some x) : x ∈ l := by
  obtain ⟨hne, hx⟩ := List.mem_getLast?_eq_getLast h
  rw [hx]
  exact List.getLast_mem hne

theorem report_progress_apply (cb : Bool) (c t : Nat) (s : TransState) :
    report_progress cb c t s
      = (.ok (), if cb then { s with progress := s.progress ++ [(c, t)] } else s) := rfl

theorem try_translate_batch_progress (tr : OllamaTranslator) (svc : ServiceModel)
    (segments : List Segment) (source_lang target_lang : String) (s : TransState) :
    (try_translate_batch tr svc segments source_lang target_lang s).2.progress = s.progress := by
  by_cases he : segments.isEmpty
  · unfold try_translate_batch
    rw [if_pos he]
    rfl
  · rw [try_translate_batch_state tr svc segments source_lang target_lang s
      (by cases segments with
          | nil => simp at he
          | cons a t => exact List.cons_ne_nil a t)]

theorem tbr_progress (tr : OllamaTranslator) (svc : ServiceModel)
    (source_lang target_lang : String) :
    ∀ (fuel : Nat) (segments : List Segment), segments.length ≤ fuel →
      ∀ (offset total : Nat) (s : TransState),
        ∃ δ : List (Nat × Nat),
          (translate_batch_recursive_fuel tr svc source_lang target_lang true fuel segments
              offset total s).2.progress = s.progress ++ δ
          ∧ (∀ p ∈ δ, offset < p.1 ∧ p.1 ≤ offset + segments.length ∧ p.2 = total)
          ∧ List.Chain' (fun a b => a.1 ≤ b.1) δ
          ∧ (∀ r s', translate_batch_recursive_fuel tr svc source_lang target_lang true fuel
                segments offset total s = (.ok r, s') →
              segments ≠ [] → δ.getLast? = some (offset + segments.length, total)) := by
  intro fuel
  induction fuel with
  | zero =>
    intro segments hlen offset total s
    cases segments with
    | nil =>
      refine ⟨[], by simp [translate_batch_recursive_fuel, TransM.pure_apply], by simp, by simp, ?_⟩
      intro r s' _ hne
      exact absurd rfl hne
    | cons a t => simp at hlen
  | succ fuel ih =>
    intro segments hlen offset total s
    cases segments with
    | nil =>
      refine ⟨[], by simp [translate_batch_recursive_fuel, TransM.pure_apply], by simp, by simp, ?_⟩
      intro r s' _ hne
      exact absurd rfl hne
    | cons seg0 rest =>
      simp only [translate_batch_recursive_fuel]
      rw [TransM.bind_apply]
      cases hA : try_translate_batch tr svc (seg0 :: rest) source_lang target_lang s with
      | mk resA sA =>
        have hPA : sA.progress = s.progress := by
          have := try_translate_batch_progress tr svc (seg0 :: rest) source_lang target_lang s
          rw [hA] at this
          exact this
        cases resA with
        | error e =>
          refine ⟨[], by simp [hPA], by simp, by simp, ?_⟩
          intro r s' hEq
          simp at hEq
        | ok o =>
          simp only
          cases o with
          | some r0 =>
            simp only [report_progress_apply, TransM.bind_apply, TransM.pure_apply, if_true]
            refine ⟨[(offset + (seg0 :: rest).length, total)], by simp [hPA], ?_, by simp, ?_⟩
            · intro p hp
              simp at hp
              subst hp
              simp
            · intro r s' _ _
              rfl
          | none =>
            simp only
            cases rest with
            | nil =>
              simp only
              rw [TransM.bind_apply]
              cases hT : translate_text tr svc seg0.text source_lang target_lang sA with
              | mk resT sT =>
                have hPT : sT.progress = sA.progress := by
                  have h2 := translate_text_state tr svc seg0.text source_lang target_lang sA
                  rw [hT] at h2
                  have h3 : (resT, sT).2.progress = sA.progress := by rw [h2]
                  exact h3
                cases resT with
                | error e =>
                  refine ⟨[], by simp [hPT, hPA], by simp, by simp, ?_⟩
                  intro r s' hEq
                  simp at hEq
                | ok txt =>
                  simp only [report_progress_apply, TransM.bind_apply, TransM.pure_apply, if_true]
                  refine ⟨[(offset + 1, total)], by simp [hPT, hPA], ?_, by simp, ?_⟩
                  · intro p hp
                    simp at hp
                    subst hp
                    simp
                  · intro r s' _ _
                    rfl
            | cons seg1 rest' =>
              simp only
              rw [TransM.bind_apply]
              have hmidlt : (seg0 :: seg1 :: rest').length / 2 < (seg0 :: seg1 :: rest').length :=
                Nat.div_lt_self (by simp) (by omega)
              have hmidge : 1 ≤ (seg0 :: seg1 :: rest').length / 2 :=
                (Nat.le_div_iff_mul_le (by omega)).mpr (by simp)
              obtain ⟨δL, hPL, hBL, hCL, hOL⟩ :=
                ih ((seg0 :: seg1 :: rest').take ((seg0 :: seg1 :: rest').length / 2))
                  (by rw [List.length_take]; omega) offset total sA
              cases hL : translate_batch_recursive_fuel tr svc source_lang target_lang true fuel
                  ((seg0 :: seg1 :: rest').take ((seg0 :: seg1 :: rest').length / 2))
                  offset total sA with
              | mk resL sL =>
                rw [hL] at hPL
                cases resL with
                | error e =>
                  refine ⟨δL, by rw [hPL, hPA], ?_, hCL, ?_⟩
                  · intro p hp
                    obtain ⟨hp1, hp2, hp3⟩ := hBL p hp
                    rw [List.length_take] at hp2
                    refine ⟨hp1, by simp at hp2 ⊢; omega, hp3⟩
                  · intro r s' hEq
                    simp at hEq
                | ok l1 =>
                  simp only
                  rw [TransM.bind_apply]
                  obtain ⟨δR, hPR, hBR, hCR, hOR⟩ :=
                    ih ((seg0 :: seg1 :: rest').drop ((seg0 :: seg1 :: rest').length / 2))
                      (by rw [List.length_drop]; omega)
                      (offset + (seg0 :: seg1 :: rest').length / 2) total sL
                  cases hR : translate_batch_recursive_fuel tr svc source_lang target_lang true fuel
                      ((seg0 :: seg1 :: rest').drop ((seg0 :: seg1 :: rest').length / 2))
                      (offset + (seg0 :: seg1 :: rest').length / 2) total sL with
                  | mk resR sR =>
                    rw [hR] at hPR
                    have hBL' : ∀ p ∈ δL,
                        offset < p.1 ∧ p.1 ≤ offset + (seg0 :: seg1 :: rest').length / 2
                          ∧ p.2 = total := by
                      intro p hp
                      obtain ⟨hp1, hp2, hp3⟩ := hBL p hp
                      rw [List.length_take] at hp2
                      refine ⟨hp1, by simp at hp2 ⊢; omega, hp3⟩
                    have hBR' : ∀ p ∈ δR,
                        offset + (seg0 :: seg1 :: rest').length / 2 < p.1
                          ∧ p.1 ≤ offset + (seg0 :: seg1 :: rest').length ∧ p.2 = total := by
                      intro p hp
                      obtain ⟨hp1, hp2, hp3⟩ := hBR p hp
                      rw [List.length_drop] at hp2
                      refine ⟨hp1, by simp at hp2 ⊢; omega, hp3⟩
                    have hBound : ∀ p ∈ δL ++ δR,
                        offset < p.1 ∧ p.1 ≤ offset + (seg0 :: seg1 :: rest').length
                          ∧ p.2 = total := by
                      intro p hp
                      rcases List.mem_append.mp hp with hp | hp
                      · obtain ⟨hp1, hp2, hp3⟩ := hBL' p hp
                        exact ⟨hp1, by omega, hp3⟩
                      · obtain ⟨hp1, hp2, hp3⟩ := hBR' p hp
                        exact ⟨by omega, hp2, hp3⟩
                    have hChain : List.Chain' (fun a b => a.1 ≤ b.1) (δL ++ δR) := by
                      rw [List.chain'_append]
                      refine ⟨hCL, hCR, ?_⟩
                      intro x hx y hy
                      have hxm := hBL' x (mem_of_getLast?_eq hx)
                      have hym := hBR' y (List.mem_of_mem_head? hy)
                      omega
                    have hProg : (δL ++ δR) ≠ [] → True := fun _ => trivial
                    cases resR with
                    | error e =>
                      refine ⟨δL ++ δR, ?_, hBound, hChain, ?_⟩
                      · rw [hPR, hPL, hPA, List.append_assoc]
                      · intro r s' hEq
                        simp at hEq
                    | ok r1 =>
                      simp only [TransM.pure_apply]
                      refine ⟨δL ++ δR, ?_, hBound, hChain, ?_⟩
                      · rw [hPR, hPL, hPA, List.append_assoc]
                      · intro r s' _ _
                        have hlast := hOR r1 sR hR
                          (by
                            intro hnil
                            have := congrArg List.length hnil
                            rw [List.length_drop] at this
                            simp at this
                            omega)
                        rw [List.getLast?_append_of_ne_nil δL
                          (by intro hnil; rw [hnil] at hlast; simp at hlast)]
                        rw [hlast]
                        have harith : offset + (seg0 :: seg1 :: rest').length / 2
                            + ((seg0 :: seg1 :: rest').drop
                                ((seg0 :: seg1 :: rest').length / 2)).length
                            = offset + (seg0 :: seg1 :: rest').length := by
                          rw [List.length_drop]
                          omega
                        rw [harith]

theorem loop_progress (tr : OllamaTranslator) (svc : ServiceModel) (segments : List Segment)
    (source_lang target_lang : String) (hbs : 0 < tr.batch_size) :
    ∀ (fuel batch_start : Nat) (s : TransState),
      segments.length - batch_start < fuel →
      ∃ δ : List (Nat × Nat),
        (translate_segments_loop tr svc segments source_lang target_lang true segments.length
            fuel batch_start s).2.progress = s.progress ++ δ
        ∧ (∀ p ∈ δ, batch_start < p.1 ∧ p.1 ≤ segments.length ∧ p.2 = segments.length)
        ∧ List.Chain' (fun a b => a.1 ≤ b.1) δ
        ∧ (∀ r s', translate_segments_loop tr svc segments source_lang target_lang true
              segments.length fuel batch_start s = (.ok r, s') →
            batch_start < segments.length →
            δ.getLast? = some (segments.length, segments.length)) := by
  intro fuel
  induction fuel with
  | zero => intro batch_start s hf; omega
  | succ fuel ih =>
    intro batch_start s hf
    have hbs' : 0 < tr.batch_size.toNat := by omega
    unfold translate_segments_loop
    by_cases hg : batch_start < segments.length ∧ 0 < tr.batch_size
    · rw [if_pos hg]
      rw [TransM.bind_apply]
      simp only [translate_batch_recursive]
      have hbatchlen : ((segments.drop batch_start).take tr.batch_size.toNat).length
          = min tr.batch_size.toNat (segments.length - batch_start) := by
        rw [List.length_take, List.length_drop]
      obtain ⟨δB, hPB, hBB, hCB, hOB⟩ := tbr_progress tr svc source_lang target_lang
        ((segments.drop batch_start).take tr.batch_size.toNat).length
        ((segments.drop batch_start).take tr.batch_size.toNat) (le_refl _)
        batch_start segments.length s
      cases hB : translate_batch_recursive_fuel tr svc source_lang target_lang true
          ((segments.drop batch_start).take tr.batch_size.toNat).length
          ((segments.drop batch_start).take tr.batch_size.toNat)
          batch_start segments.length s with
      | mk resB sB =>
        rw [hB] at hPB
        have hBB' : ∀ p ∈ δB, batch_start < p.1 ∧ p.1 ≤ segments.length
            ∧ p.2 = segments.length := by
          intro p hp
          obtain ⟨hp1, hp2, hp3⟩ := hBB p hp
          rw [hbatchlen] at hp2
          exact ⟨hp1, by omega, hp3⟩
        cases resB with
        | error e =>
          refine ⟨δB, by rw [hPB], hBB', hCB, ?_⟩
          intro r s' hEq
          simp at hEq
        | ok l1 =>
          simp only
          rw [TransM.bind_apply]
          obtain ⟨δR, hPR, hBR, hCR, hOR⟩ := ih (batch_start + tr.batch_size.toNat) sB (by omega)
          cases hR : translate_segments_loop tr svc segments source_lang target_lang true
              segments.length fuel (batch_start + tr.batch_size.toNat) sB with
          | mk resR sR =>
            rw [hR] at hPR
            have hBR' : ∀ p ∈ δR, batch_start < p.1 ∧ p.1 ≤ segments.length
                ∧ p.2 = segments.length := by
              intro p hp
              obtain ⟨hp1, hp2, hp3⟩ := hBR p hp
              exact ⟨by omega, hp2, hp3⟩
            have hBound : ∀ p ∈ δB ++ δR, batch_start < p.1 ∧ p.1 ≤ segments.length
                ∧ p.2 = segments.length := by
              intro p hp
              rcases List.mem_append.mp hp with hp | hp
              · exact hBB' p hp
              · exact hBR' p hp
            have hChain : List.Chain' (fun a b => a.1 ≤ b.1) (δB ++ δR) := by
              rw [List.chain'_append]
              refine ⟨hCB, hCR, ?_⟩
              intro x hx y hy
              obtain ⟨hx1, hx2, _⟩ := hBB x (mem_of_getLast?_eq hx)
              obtain ⟨hy1, _, _⟩ := hBR y (List.mem_of_mem_head? hy)
              rw [hbatchlen] at hx2
              omega
            cases resR with
            | error e =>
              refine ⟨δB ++ δR, by rw [hPR, hPB, List.append_assoc], hBound, hChain, ?_⟩
              intro r s' hEq
              simp at hEq
            | ok r1 =>
              simp only [TransM.pure_apply]
              refine ⟨δB ++ δR, by rw [hPR, hPB, List.append_assoc], hBound, hChain, ?_⟩
              intro r s' _ _
              by_cases hnext : batch_start + tr.batch_size.toNat < segments.length
              · have hlast := hOR r1 sR hR hnext
                rw [List.getLast?_append_of_ne_nil δB
                  (by intro hnil; rw [hnil] at hlast; simp at hlast)]
                exact hlast
              · have hstop : translate_segments_loop tr svc segments source_lang target_lang true
                    segments.length fuel (batch_start + tr.batch_size.toNat) sB
                    = (.ok [], sB) := by
                  cases fuel with
                  | zero => rfl
                  | succ fuel2 =>
                    unfold translate_segments_loop
                    rw [if_neg (by intro hc; exact hnext hc.1)]
                    rfl
                rw [hstop] at hR
                injection hR with hR1 hR2
                subst hR2
                have hδR : δR = [] := by
                  have h1 := congrArg List.length hPR
                  simp at h1
                  exact h1
                subst hδR
                rw [List.append_nil]
                have hlast := hOB l1 sB hB
                  (by
                    intro hnil
                    have := congrArg List.length hnil
                    rw [hbatchlen] at this
                    simp at this
                    omega)
                rw [hbatchlen] at hlast
                rw [hlast]
                have : batch_start + min tr.batch_size.toNat (segments.length - batch_start)
                    = segments.length := by omega
                rw [this]
    · rw [if_neg hg]
      rw [TransM.pure_apply]
      refine ⟨[], by simp, by simp, by simp, ?_⟩
      intro r s' _ hlt
      exact absurd ⟨hlt, hbs⟩ hg

/-- C8 (amended): for every run of `translate_segments` with a progress
callback (and a positive batch size), the successive `current` values passed
to the callback are non-decreasing and every reported `total` is the input
length; and whenever the run *returns normally*, the final invocation (if
any occurs) has `current = total = N`.  The original claim's unconditional
final-invocation clause fails on runs that raise (see the counterexample). -/
theorem c8_progress_monotone_amended (tr : OllamaTranslator) (svc : ServiceModel) (segments : List Segment)
    (source_lang target_lang : String) (hbs : 0 < tr.batch_size) :
    List.Chain' (fun a b => a.1 ≤ b.1)
      (translate_segments tr svc segments source_lang target_lang true initState).2.progress
    ∧ (∀ p ∈ (translate_segments tr svc segments source_lang target_lang true
          initState).2.progress, p.2 = segments.length)
    ∧ (∀ r s', translate_segments tr svc segments source_lang target_lang true initState
          = (.ok r, s') →
        ∀ p, (translate_segments tr svc segments source_lang target_lang true
            initState).2.progress.getLast? = some p →
          p = (segments.length, segments.length)) := by
  unfold translate_segments
  by_cases he : segments.isEmpty
  · rw [if_pos he]
    refine ⟨by simp [TransM.pure_apply, initState], by simp [TransM.pure_apply, initState], ?_⟩
    intro r s' _ p hp
    simp [TransM.pure_apply, initState] at hp
  · rw [if_neg he]
    have hlen : 0 < segments.length := by
      cases segments with
      | nil => simp at he
      | cons a t => simp
    obtain ⟨δ, hP, hB, hC, hO⟩ := loop_progress tr svc segments source_lang target_lang hbs
      (segments.length + 1) 0 initState (by omega)
    cases hRun : translate_segments_loop tr svc segments source_lang target_lang true
        segments.length (segments.length + 1) 0 initState with
    | mk res sfin =>
      rw [hRun] at hP
      have hP' : sfin.progress = δ := by
        have h2 : (res, sfin).2.progress = initState.progress ++ δ := hP
        simpa [initState] using h2
      refine ⟨by rw [hP']; exact hC, ?_, ?_⟩
      · intro p hp
        rw [hP'] at hp
        exact (hB p hp).2.2
      · intro r s' hEq p hp
        injection hEq with hE1 hE2
        subst hE1
        subst hE2
        have hlast := hO r sfin hRun hlen
        rw [hP'] at hp
        rw [hlast] at hp
        injection hp with hp1
        rw [← hp1]

/-- C8 (counterexample): with `batch_size = 1`, two segments, and a service
that answers the first batch and then becomes unreachable, the callback is
invoked exactly once with `(1, 2)` and the run then raises — so the final
invocation has `current = 1 ≠ 2 = total = N`, refuting the claim's
unconditional final-invocation clause (progress values are still
non-decreasing). -/
theorem c8_progress_counterexample :
    (translate_segments batchOneTranslator thenUnreachableService twoSegments
        "English" "Chinese" true initState).2.progress = [(1, 2)]
    ∧ (translate_segments batchOneTranslator thenUnreachableService twoSegments
        "English" "Chinese" true initState).1 = .error .connectionError
    ∧ twoSegments.length = 2 :=
  ⟨rfl, rfl, rfl⟩

/-- C8 (witness): the amended theorem at a concrete translator and service. -/
theorem c8_progress_witness :
    List.Chain' (fun a b => a.1 ≤ b.1)
      (translate_segments batchOneTranslator (fun _ => .ok "1. X".toList) twoSegments
        "English" "Chinese" true initState).2.progress
    ∧ (∀ p ∈ (translate_segments batchOneTranslator (fun _ => .ok "1. X".toList) twoSegments
          "English" "Chinese" true initState).2.progress, p.2 = twoSegments.length)
    ∧ (∀ r s', translate_segments batchOneTranslator (fun _ => .ok "1. X".toList) twoSegments
          "English" "Chinese" true initState = (.ok r, s') →
        ∀ p, (translate_segments batchOneTranslator (fun _ => .ok "1. X".toList) twoSegments
            "English" "Chinese" true initState).2.progress.getLast? = some p →
          p = (twoSegments.length, twoSegments.length)) :=
  c8_progress_monotone_amended batchOneTranslator (fun _ => .ok "1. X".toList) twoSegments
    "English" "Chinese" (by decide)
